import Mathlib

set_option maxHeartbeats 1000000

/-!
Shallow embedding of the content-partitioning engine of the quagga
repository (`src/template/split.rs`).

Strings are modelled as lists of Unicode scalar values (`List Char`).
`List.length` corresponds to Rust `str::chars().count()` and `byteLen`
to Rust `str::len()` (the UTF-8 byte count).  Rust's saturating `usize`
subtraction coincides with truncated `Nat` subtraction.
-/

abbrev Str := List Char

/-- Convert a Lean string literal into the model representation. -/
def str (s : String) : Str := s.toList

/-- UTF-8 encoded size of one scalar value, as Rust `char::len_utf8`. -/
def utf8Size (c : Char) : Nat :=
  if c.toNat < 0x80 then 1
  else if c.toNat < 0x800 then 2
  else if c.toNat < 0x10000 then 3
  else 4

/-- Rust `str::len`: the UTF-8 byte count of a string. -/
def byteLen (s : Str) : Nat := (s.map utf8Size).sum

/-- The `PartTemplate` struct: part header, part footer and pending text. -/
structure PartTemplate where
  header : Str
  footer : Str
  pending : Str

/-- Fuel-bounded scanner for `replaceAll`.  The fuel only enforces
structural termination; it is always called with fuel at least the length
of the scanned string, and every step consumes at least one character, so
the fuel never runs out on the strings actually scanned. -/
def replaceAllFuel : Nat → Str → Str → Str → Str
  | 0, s, _, _ => s
  | fuel + 1, s, pat, rep =>
    match s with
    | [] => []
    | c :: rest =>
      if pat ≠ [] ∧ pat.isPrefixOf (c :: rest) = true then
        rep ++ replaceAllFuel fuel ((c :: rest).drop pat.length) pat rep
      else
        c :: replaceAllFuel fuel rest pat rep

/-- Rust `str::replace`: replace every non-overlapping occurrence of `pat`
with `rep`, scanning left to right and continuing after each match. -/
def replaceAll (s pat rep : Str) : Str := replaceAllFuel s.length s pat rep

/-- The placeholder `<part-number>`. -/
def phNum : Str := str "<part-number>"

/-- The placeholder `<total-parts>`. -/
def phTotal : Str := str "<total-parts>"

/-- The placeholder `<parts-remaining>`. -/
def phRemain : Str := str "<parts-remaining>"

/-- Decimal rendering of a number, as Rust `usize::to_string`. -/
def natToStr (n : Nat) : Str := (Nat.repr n).toList

/-- `replace_placeholders` from `split.rs`: substitute `<part-number>`,
`<total-parts>` and `<parts-remaining>` (the latter computed with
saturating subtraction). -/
def replace_placeholders (text : Str) (partNumber totalParts : Nat) : Str :=
  let partsRemaining := totalParts - partNumber
  replaceAll
    (replaceAll (replaceAll text phNum (natToStr partNumber))
      phTotal (natToStr totalParts))
    phRemain (natToStr partsRemaining)

/-- Substitute the sentinel `999` for all three placeholders, as done by
`calculate_part_overhead`. -/
def sub999 (s : Str) : Str :=
  replaceAll (replaceAll (replaceAll s phNum (str "999")) phTotal (str "999"))
    phRemain (str "999")

/-- `calculate_part_overhead` from `split.rs`: estimated character overhead
of the part wrapper text.  Header and footer always contribute a newline;
the pending text contributes only when non-empty. -/
def calculate_part_overhead (pt : PartTemplate) : Nat :=
  let partHeader := sub999 pt.header
  let partFooter := sub999 pt.footer
  let partPending := sub999 pt.pending
  let overhead := 0
  let overhead := overhead + (partHeader.length + 1)
  let overhead := overhead + (partFooter.length + 1)
  if pt.pending = [] then overhead else overhead + (partPending.length + 1)

/-- Split at `'\n'` characters, keeping empty segments: the auxiliary
decomposition underlying Rust `str::lines`.  Always returns at least one
segment. -/
def splitNewline : Str → List Str
  | [] => [[]]
  | c :: rest =>
    if c = '\n' then [] :: splitNewline rest
    else
      match splitNewline rest with
      | [] => [[c]]
      | p :: ps => (c :: p) :: ps

/-- Strip one trailing carriage return, as Rust `str::lines` does for lines
terminated by `"\r\n"`. -/
def stripCr (l : Str) : Str := if l.getLast? = some '\r' then l.dropLast else l

/-- Rust `str::lines`: split at `'\n'`, strip a `'\r'` before each `'\n'`,
and do not produce a final empty line for a trailing newline. -/
def rustLines (s : Str) : List Str :=
  if s = [] then []
  else
    let parts := splitNewline s
    (parts.dropLast.map stripCr) ++
      (if parts.getLast? = some [] then [] else [parts.getLast?.getD []])

/-- The accumulation loop of `split_file_by_lines`: gather lines into the
current chunk while it stays within `maxChunkSize`, flushing the current
chunk (with its final newline removed) when the next line would overflow.
The current chunk always ends with a newline when non-empty, so removing
the last byte (`current_chunk[..len - 1]`) is removing the last character. -/
def split_loop (maxChunkSize : Nat) :
    List Str → List Str → Str → Nat → List Str
  | [], chunks, currentChunk, _ =>
    if currentChunk = [] then chunks else chunks ++ [currentChunk.dropLast]
  | line :: rest, chunks, currentChunk, currentChunkChars =>
    let lineWithNewline := line.length + 1
    if currentChunkChars + lineWithNewline > maxChunkSize then
      if currentChunk = [] then
        split_loop maxChunkSize rest chunks (currentChunk ++ line ++ ['\n'])
          (currentChunkChars + lineWithNewline)
      else
        split_loop maxChunkSize rest (chunks ++ [currentChunk.dropLast])
          (line ++ ['\n']) lineWithNewline
    else
      split_loop maxChunkSize rest chunks (currentChunk ++ line ++ ['\n'])
        (currentChunkChars + lineWithNewline)

/-- `split_file_by_lines` from `split.rs`: split an oversized file into
chunks at line boundaries. -/
def split_file_by_lines (fileContent : Str) (maxChunkSize : Nat) : List Str :=
  split_loop maxChunkSize (rustLines fileContent) [] [] 0

/-- The `PartContent` struct: the file chunks making up one part. -/
structure PartContent where
  file_chunks : List Str

/-- `calculate_file_length` from `split.rs`: the planned contribution of
one file, counting the global header for the first file and the global
footer for the last file (when non-empty), in characters, plus one
newline. -/
def calculate_file_length (header footer : Str) (files : List Str)
    (index : Nat) (file : Str) : Nat :=
  let isFirst := index = 0 ∧ header ≠ []
  let isLast := index = files.length - 1 ∧ footer ≠ []
  let headerLen := if isFirst then header.length + 1 else 0
  let footerLen := if isLast then footer.length + 1 else 0
  headerLen + file.length + 1 + footerLen

/-- The chunk loop of `handle_large_file`: each chunk is placed via
`start_new_part_if_needed` followed by `add_chunk_to_part` (which records
the chunk's character count plus one newline). -/
def add_chunks :
    List Str → List PartContent → PartContent → Nat →
      List PartContent × PartContent × Nat
  | [], parts, currentPart, currentSize => (parts, currentPart, currentSize)
  | chunk :: rest, parts, currentPart, currentSize =>
    if currentPart.file_chunks = [] then
      add_chunks rest parts ⟨currentPart.file_chunks ++ [chunk ++ ['\n']]⟩
        (currentSize + (chunk.length + 1))
    else
      add_chunks rest (parts ++ [currentPart]) ⟨[chunk ++ ['\n']]⟩
        (chunk.length + 1)

/-- The file loop of `create_split_plan`, with `handle_exceeding_size`,
`handle_large_file`, `start_new_part_if_needed` and `add_file_to_part`
inlined.  Note that `handle_exceeding_size` compares the file's byte
length (`str::len`) against the budget, records byte length plus one when
adding such a file, and that `handle_large_file` subtracts the byte
lengths of the global header and footer (saturating). -/
def plan_loop (header footer : Str) (files : List Str)
    (partOverhead maxPartChars : Nat) :
    List (Nat × Str) → List PartContent → PartContent → Nat →
      List PartContent
  | [], parts, currentPart, _ =>
    if currentPart.file_chunks = [] then parts else parts ++ [currentPart]
  | (i, file) :: rest, parts, currentPart, currentPartSize =>
    let fileLength := calculate_file_length header footer files i file
    if currentPartSize + fileLength + partOverhead > maxPartChars then
      if byteLen file + partOverhead > maxPartChars then
        let maxChunkSize :=
          maxPartChars - (partOverhead + byteLen footer + byteLen header)
        let st := add_chunks (split_file_by_lines file maxChunkSize)
          parts currentPart currentPartSize
        plan_loop header footer files partOverhead maxPartChars rest
          st.1 st.2.1 st.2.2
      else
        if currentPart.file_chunks = [] then
          plan_loop header footer files partOverhead maxPartChars rest
            parts ⟨currentPart.file_chunks ++ [file ++ ['\n']]⟩
            (currentPartSize + (byteLen file + 1))
        else
          plan_loop header footer files partOverhead maxPartChars rest
            (parts ++ [currentPart]) ⟨[file ++ ['\n']]⟩ (byteLen file + 1)
    else
      plan_loop header footer files partOverhead maxPartChars rest
        parts ⟨currentPart.file_chunks ++ [file ++ ['\n']]⟩
        (currentPartSize + fileLength)

/-- Pair every element with its position, as Rust `iter().enumerate()`. -/
def withIdx : Nat → List α → List (Nat × α)
  | _, [] => []
  | i, a :: as => (i, a) :: withIdx (i + 1) as

/-- `create_split_plan` from `split.rs`. -/
def create_split_plan (header : Str) (files : List Str) (footer : Str)
    (pt : PartTemplate) (maxPartChars : Nat) : List PartContent :=
  plan_loop header footer files (calculate_part_overhead pt) maxPartChars
    (withIdx 0 files) [] ⟨[]⟩ 0

/-- The body of the assembly loop in `assemble_multiple_parts`: global
header (first part only), part header, chunks, part footer, pending text
(non-last parts only), global footer (last part only); every wrapper
fragment is followed by a newline. -/
def assemble_one_part (pt : PartTemplate) (header footer : Str)
    (totalParts i : Nat) (part : PartContent) : Str :=
  (if i = 0 ∧ header ≠ [] then header ++ ['\n'] else [])
    ++ (replace_placeholders pt.header (i + 1) totalParts ++ ['\n'])
    ++ part.file_chunks.flatten
    ++ (replace_placeholders pt.footer (i + 1) totalParts ++ ['\n'])
    ++ (if i < totalParts - 1 ∧ pt.pending ≠ [] then
          replace_placeholders pt.pending (i + 1) totalParts ++ ['\n']
        else [])
    ++ (if i = totalParts - 1 ∧ footer ≠ [] then footer ++ ['\n'] else [])

/-- `assemble_multiple_parts` from `split.rs`. -/
def assemble_multiple_parts (parts : List PartContent) (pt : PartTemplate)
    (header footer : Str) : List Str :=
  (withIdx 0 parts).map
    (fun ip => assemble_one_part pt header footer parts.length ip.1 ip.2)

/-- `fits_in_single_part` from `split.rs`: character count of all files
(each plus a newline), plus the header and a newline when the header is
non-empty, plus the footer, is within the budget. -/
def fits_in_single_part (header : Str) (files : List Str) (footer : Str)
    (maxPartChars : Nat) : Prop :=
  (files.map (fun f => f.length + 1)).sum
      + (if header = [] then 0 else header.length + 1)
      + footer.length
    ≤ maxPartChars

instance (header : Str) (files : List Str) (footer : Str) (m : Nat) :
    Decidable (fits_in_single_part header files footer m) := by
  unfold fits_in_single_part
  exact inferInstance

/-- `assemble_single_part` from `split.rs`: header plus newline (when
non-empty), every file followed by a newline, then the footer with
nothing appended after it. -/
def assemble_single_part (header : Str) (files : List Str) (footer : Str) :
    List Str :=
  [(if header = [] then [] else header ++ ['\n'])
    ++ (files.map (fun f => f ++ ['\n'])).flatten ++ footer]

/-- `split_into_parts` from `split.rs`: the public entry point. -/
def split_into_parts (header : Str) (files : List Str) (footer : Str)
    (pt : PartTemplate) (maxPartChars : Nat) : List Str :=
  if fits_in_single_part header files footer maxPartChars then
    assemble_single_part header files footer
  else
    assemble_multiple_parts (create_split_plan header files footer pt maxPartChars)
      pt header footer

/-- The chunk content of a split plan with all wrapper text stripped: the
concatenation, in order, of the file chunks of every planned part. -/
def planContent (parts : List PartContent) : Str :=
  (parts.map (fun p => p.file_chunks.flatten)).flatten

/-- Join a list of strings, appending one newline after each element: the
separator convention used both by `assemble_single_part` (each file is
pushed followed by a newline) and by the chunk storage (`format!`
appends a newline to every stored chunk). -/
def glue (l : List Str) : Str := (l.map (fun x => x ++ ['\n'])).flatten

/-- The lines carried by a list of chunks: each chunk decomposed at its
internal newlines (a chunk has no trailing newline, so `splitNewline`
recovers exactly the lines that were packed into it). -/
def chunkLines (chunks : List Str) : List Str :=
  (chunks.map splitNewline).flatten

/-- Total character count of a list of chunks. -/
def sumLen (l : List Str) : Nat := (l.map List.length).sum

/-- Overhead formula as claim C7 words it: the substituted length of each
fragment plus one newline per NON-empty fragment, an empty fragment
contributing nothing at all. -/
def overhead_claimed (pt : PartTemplate) : Nat :=
  (if pt.header = [] then 0 else (sub999 pt.header).length + 1)
    + (if pt.footer = [] then 0 else (sub999 pt.footer).length + 1)
    + (if pt.pending = [] then 0 else (sub999 pt.pending).length + 1)

/-- Overhead formula as amended: the substituted lengths of the three
fragments, plus one newline each for the part header and part footer
unconditionally (even when empty), plus one newline for the pending
fragment only when it is non-empty. -/
def overhead_spec (pt : PartTemplate) : Nat :=
  (sub999 pt.header).length + (sub999 pt.footer).length
    + (if pt.pending = [] then 0 else (sub999 pt.pending).length + 1) + 2

/-- A block is content-safe for line splitting when it is non-empty,
contains no carriage return, and does not end with a newline: exactly the
blocks for which Rust `str::lines` is lossless. -/
def goodBlock (f : Str) : Prop :=
  '\r' ∉ f ∧ f ≠ [] ∧ f.getLast? ≠ some '\n'

instance (f : Str) : Decidable (goodBlock f) := by
  unfold goodBlock
  exact inferInstance

/-! ### Basic facts about `withIdx` -/

theorem withIdx_length (l : List α) : ∀ k, (withIdx k l).length = l.length := by
  induction l with
  | nil => intro k; rfl
  | cons a as ih => intro k; simp [withIdx, ih]

theorem withIdx_getElem? (l : List α) :
    ∀ k i, (withIdx k l)[i]? = l[i]?.map (fun a => (k + i, a)) := by
  induction l with
  | nil => intro k i; simp [withIdx]
  | cons a as ih =>
    intro k i
    cases i with
    | zero => simp [withIdx]
    | succ j =>
      simp only [withIdx, List.getElem?_cons_succ, ih (k + 1) j]
      cases as[j]? with
      | none => rfl
      | some b => simp; omega

theorem snd_mem_of_mem_withIdx (l : List α) :
    ∀ k p, p ∈ withIdx k l → p.2 ∈ l := by
  induction l with
  | nil => intro k p h; simp [withIdx] at h
  | cons a as ih =>
    intro k p h
    simp only [withIdx, List.mem_cons] at h
    rcases h with h | h
    · subst h; simp
    · exact List.mem_cons_of_mem _ (ih (k + 1) p h)

theorem withIdx_map_snd (l : List α) : ∀ k, (withIdx k l).map Prod.snd = l := by
  induction l with
  | nil => intro k; rfl
  | cons a as ih => intro k; simp [withIdx, ih]

/-! ### Basic facts about `glue` -/

theorem glue_nil : glue [] = [] := rfl

theorem glue_cons (x : Str) (l : List Str) :
    glue (x :: l) = (x ++ ['\n']) ++ glue l := by
  simp [glue]

theorem glue_append (l₁ l₂ : List Str) : glue (l₁ ++ l₂) = glue l₁ ++ glue l₂ := by
  simp [glue]

theorem glue_singleton (x : Str) : glue [x] = x ++ ['\n'] := by
  simp [glue]

theorem glue_ne_nil (x : Str) (l : List Str) : glue (x :: l) ≠ [] := by
  simp [glue_cons]

/-! ### Basic facts about `splitNewline` and `rustLines` -/

theorem splitNewline_ne_nil (s : Str) : splitNewline s ≠ [] := by
  induction s with
  | nil => simp [splitNewline]
  | cons c rest ih =>
    simp only [splitNewline]
    by_cases hc : c = '\n'
    · simp [hc]
    · rw [if_neg hc]
      cases hsp : splitNewline rest with
      | nil => simp
      | cons p ps => simp

theorem glue_splitNewline (s : Str) : glue (splitNewline s) = s ++ ['\n'] := by
  induction s with
  | nil => simp [splitNewline, glue]
  | cons c rest ih =>
    simp only [splitNewline]
    by_cases hc : c = '\n'
    · rw [if_pos hc, glue_cons, hc, ih]
      simp
    · rw [if_neg hc]
      cases hsp : splitNewline rest with
      | nil => exact absurd hsp (splitNewline_ne_nil rest)
      | cons p ps =>
        rw [hsp, glue_cons] at ih
        rw [glue_cons]
        simp only [List.cons_append, List.append_assoc] at ih ⊢
        rw [ih]

theorem mem_of_mem_splitNewline (s : Str) :
    ∀ l ∈ splitNewline s, ∀ c ∈ l, c ∈ s := by
  induction s with
  | nil => intro l hl c hc; simp [splitNewline] at hl; subst hl; simp at hc
  | cons a rest ih =>
    intro l hl c hc
    simp only [splitNewline] at hl
    by_cases ha : a = '\n'
    · rw [if_pos ha] at hl
      rcases List.mem_cons.mp hl with h | h
      · subst h; simp at hc
      · exact List.mem_cons_of_mem _ (ih l h c hc)
    · rw [if_neg ha] at hl
      cases hsp : splitNewline rest with
      | nil => exact absurd hsp (splitNewline_ne_nil rest)
      | cons p ps =>
        rw [hsp] at hl
        rcases List.mem_cons.mp hl with h | h
        · subst h
          rcases List.mem_cons.mp hc with h' | h'
          · subst h'; simp
          · exact List.mem_cons_of_mem _ (ih p (by rw [hsp]; simp) c h')
        · exact List.mem_cons_of_mem _ (ih l (by rw [hsp]; simp [h]) c hc)

theorem no_newline_of_mem_splitNewline (s : Str) :
    ∀ l ∈ splitNewline s, '\n' ∉ l := by
  induction s with
  | nil => intro l hl; simp [splitNewline] at hl; subst hl; simp
  | cons a rest ih =>
    intro l hl
    simp only [splitNewline] at hl
    by_cases ha : a = '\n'
    · rw [if_pos ha] at hl
      rcases List.mem_cons.mp hl with h | h
      · subst h; simp
      · exact ih l h
    · rw [if_neg ha] at hl
      cases hsp : splitNewline rest with
      | nil => exact absurd hsp (splitNewline_ne_nil rest)
      | cons p ps =>
        rw [hsp] at hl
        rcases List.mem_cons.mp hl with h | h
        · subst h
          intro hmem
          rcases List.mem_cons.mp hmem with h' | h'
          · exact ha h'.symm
          · exact ih p (by rw [hsp]; simp) h'
        · exact ih l (by rw [hsp]; simp [h])

theorem splitNewline_getLast?_ne_nil (s : Str) :
    s ≠ [] → s.getLast? ≠ some '\n' → (splitNewline s).getLast? ≠ some [] := by
  induction s with
  | nil => intro h; exact absurd rfl h
  | cons c rest ih =>
    intro _ hlast
    simp only [splitNewline]
    by_cases hc : c = '\n'
    · rw [if_pos hc]
      cases rest with
      | nil =>
        subst hc
        simp at hlast
      | cons r rs =>
        rw [show ([] :: splitNewline (r :: rs)) = [([] : Str)] ++ splitNewline (r :: rs) from rfl,
          List.getLast?_append_of_ne_nil _ (splitNewline_ne_nil (r :: rs))]
        exact ih (by simp) (by rwa [List.getLast?_cons_cons] at hlast)
    · rw [if_neg hc]
      cases hsp : splitNewline rest with
      | nil => exact absurd hsp (splitNewline_ne_nil rest)
      | cons p ps =>
        cases hps : ps with
        | nil => simp
        | cons q qs =>
          subst hps
          show ((c :: p) :: q :: qs).getLast? ≠ some []
          rw [show ((c :: p) :: q :: qs) = [c :: p] ++ (q :: qs) from rfl,
            List.getLast?_append_of_ne_nil _ (by simp)]
          cases rest with
          | nil => simp [splitNewline] at hsp
          | cons r rs =>
            have h2 := ih (by simp) (by rwa [List.getLast?_cons_cons] at hlast)
            rw [hsp, show (p :: q :: qs) = [p] ++ (q :: qs) from rfl,
              List.getLast?_append_of_ne_nil _ (by simp)] at h2
            exact h2

theorem stripCr_no_newline (l : Str) (h : '\n' ∉ l) : '\n' ∉ stripCr l := by
  unfold stripCr
  split
  · intro hmem
    exact h (List.mem_of_mem_dropLast hmem)
  · exact h

theorem rustLines_no_newline (s : Str) : ∀ l ∈ rustLines s, '\n' ∉ l := by
  intro l hl
  unfold rustLines at hl
  split at hl
  · simp at hl
  · rw [List.mem_append] at hl
    rcases hl with hl | hl
    · rw [List.mem_map] at hl
      obtain ⟨l₀, hl₀, rfl⟩ := hl
      exact stripCr_no_newline l₀
        (no_newline_of_mem_splitNewline s l₀ (List.mem_of_mem_dropLast hl₀))
    · split at hl
      · simp at hl
      · rw [List.mem_singleton] at hl
        subst hl
        cases hgl : (splitNewline s).getLast? with
        | none => simp [hgl]
        | some g =>
          simp only [hgl, Option.getD_some]
          exact no_newline_of_mem_splitNewline s g (List.mem_of_mem_getLast? hgl)

theorem rustLines_eq_splitNewline (s : Str) (hgood : goodBlock s) :
    rustLines s = splitNewline s := by
  obtain ⟨hcr, hne, hlast⟩ := hgood
  have h1 := splitNewline_getLast?_ne_nil s hne hlast
  simp only [rustLines, hne, h1, if_neg, ite_false, if_false]
  have hmap : ∀ l ∈ (splitNewline s).dropLast, stripCr l = l := by
    intro l hl
    have hmem : l ∈ splitNewline s := List.mem_of_mem_dropLast hl
    unfold stripCr
    rw [if_neg]
    intro hsome
    exact hcr (mem_of_mem_splitNewline s l hmem '\r' (List.mem_of_mem_getLast? hsome))
  rw [show (splitNewline s).dropLast.map stripCr = (splitNewline s).dropLast.map id from
    List.map_congr_left hmap, List.map_id]
  have hnn := splitNewline_ne_nil s
  cases hgl : (splitNewline s).getLast? with
  | none => exact absurd (List.getLast?_eq_none_iff.mp hgl) hnn
  | some g =>
    simp only [Option.getD_some]
    have := List.getLast?_eq_getLast (splitNewline s) hnn
    rw [hgl] at this
    have hg : g = (splitNewline s).getLast hnn := by
      injection this with h2
    rw [hg]
    exact List.dropLast_append_getLast hnn

theorem glue_rustLines (s : Str) (hgood : goodBlock s) :
    glue (rustLines s) = s ++ ['\n'] := by
  rw [rustLines_eq_splitNewline s hgood, glue_splitNewline]

theorem dropLast_append_of_getLast? (l : Str) (a : Char) (h : l.getLast? = some a) :
    l.dropLast ++ [a] = l := by
  have hne : l ≠ [] := by intro hl; rw [hl] at h; simp at h
  have h3 := List.getLast?_eq_getLast l hne
  rw [h] at h3
  have h5 : a = l.getLast hne := by injection h3 with h4
  rw [h5]
  exact List.dropLast_append_getLast hne

/-! ### The chunk accumulation loop preserves content -/

theorem split_loop_glue (m : Nat) : ∀ (ls chunks : List Str) (cur : Str) (n : Nat),
    (cur = [] ∨ cur.getLast? = some '\n') →
    glue (split_loop m ls chunks cur n) = glue chunks ++ cur ++ glue ls := by
  intro ls
  induction ls with
  | nil =>
    intro chunks cur n hcur
    by_cases hce : cur = []
    · subst hce
      simp [split_loop, glue]
    · have hlast : cur.getLast? = some '\n' := by
        rcases hcur with h | h
        · exact absurd h hce
        · exact h
      simp only [split_loop, if_neg hce]
      rw [glue_append, glue_singleton, dropLast_append_of_getLast? cur '\n' hlast]
      simp [glue]
  | cons line rest ih =>
    intro chunks cur n hcur
    simp only [split_loop]
    have hcur' : (cur ++ line) ++ ['\n'] = [] ∨ ((cur ++ line) ++ ['\n']).getLast? = some '\n' :=
      Or.inr (List.getLast?_concat _)
    by_cases hov : n + (line.length + 1) > m
    · rw [if_pos hov]
      by_cases hce : cur = []
      · rw [if_pos hce, ih chunks _ _ hcur']
        subst hce
        simp [glue_cons, List.append_assoc]
      · have hlast : cur.getLast? = some '\n' := by
          rcases hcur with h | h
          · exact absurd h hce
          · exact h
        rw [if_neg hce, ih (chunks ++ [cur.dropLast]) _ _ (Or.inr (List.getLast?_concat _))]
        rw [glue_append, glue_singleton, dropLast_append_of_getLast? cur '\n' hlast]
        simp [glue_cons, List.append_assoc]
    · rw [if_neg hov, ih chunks _ _ hcur']
      simp [glue_cons, List.append_assoc]

theorem glue_split_file_by_lines (s : Str) (m : Nat) :
    glue (split_file_by_lines s m) = glue (rustLines s) := by
  unfold split_file_by_lines
  rw [split_loop_glue m (rustLines s) [] [] 0 (Or.inl rfl)]
  simp [glue]

theorem glue_split_file_by_lines_good (s : Str) (m : Nat) (hgood : goodBlock s) :
    glue (split_file_by_lines s m) = s ++ ['\n'] := by
  rw [glue_split_file_by_lines, glue_rustLines s hgood]

/-! ### Recovering lines from chunks -/

theorem splitNewline_of_no_newline (l : Str) (h : '\n' ∉ l) : splitNewline l = [l] := by
  induction l with
  | nil => rfl
  | cons c rest ih =>
    have hc : c ≠ '\n' := by
      intro hh
      exact h (by rw [hh]; exact List.mem_cons_self '\n' rest)
    simp only [splitNewline, if_neg hc]
    rw [ih (fun hm => h (List.mem_cons_of_mem c hm))]

theorem splitNewline_append_newline (l t : Str) (h : '\n' ∉ l) :
    splitNewline (l ++ '\n' :: t) = l :: splitNewline t := by
  induction l with
  | nil => simp [splitNewline]
  | cons c rest ih =>
    have hc : c ≠ '\n' := by
      intro hh
      exact h (by rw [hh]; exact List.mem_cons_self '\n' rest)
    have hih := ih (fun hm => h (List.mem_cons_of_mem c hm))
    rw [List.cons_append]
    simp only [splitNewline, if_neg hc, List.append_eq]
    rw [hih]

theorem splitNewline_glue_dropLast (g : List Str) (hne : g ≠ [])
    (h : ∀ l ∈ g, '\n' ∉ l) : splitNewline ((glue g).dropLast) = g := by
  induction g with
  | nil => exact absurd rfl hne
  | cons l rest ih =>
    cases rest with
    | nil =>
      rw [glue_singleton, List.dropLast_concat]
      exact splitNewline_of_no_newline l (h l (by simp))
    | cons x xs =>
      rw [glue_cons, List.dropLast_append_of_ne_nil _ (glue_ne_nil x xs)]
      rw [show (l ++ ['\n']) ++ (glue (x :: xs)).dropLast
            = l ++ '\n' :: (glue (x :: xs)).dropLast by simp]
      rw [splitNewline_append_newline l _ (h l (by simp))]
      rw [ih (by simp) (fun y hy => h y (List.mem_cons_of_mem l hy))]

theorem chunkLines_append (c₁ c₂ : List Str) :
    chunkLines (c₁ ++ c₂) = chunkLines c₁ ++ chunkLines c₂ := by
  simp [chunkLines]

theorem split_loop_lines (m : Nat) : ∀ (ls chunks : List Str) (g : List Str) (n : Nat),
    (∀ l ∈ ls, '\n' ∉ l) → (∀ l ∈ g, '\n' ∉ l) →
    chunkLines (split_loop m ls chunks (glue g) n) = chunkLines chunks ++ g ++ ls := by
  intro ls
  induction ls with
  | nil =>
    intro chunks g n _ hg
    cases g with
    | nil => simp [split_loop, glue, chunkLines]
    | cons x xs =>
      simp only [split_loop, if_neg (glue_ne_nil x xs)]
      rw [chunkLines_append]
      have : chunkLines [(glue (x :: xs)).dropLast] = x :: xs := by
        simp [chunkLines, splitNewline_glue_dropLast (x :: xs) (by simp) hg]
      rw [this]
      simp
  | cons line rest ih =>
    intro chunks g n hls hg
    have hline : '\n' ∉ line := hls line (by simp)
    have hrest : ∀ l ∈ rest, '\n' ∉ l := fun l hl => hls l (List.mem_cons_of_mem line hl)
    have hsnoc : ∀ l ∈ g ++ [line], '\n' ∉ l := by
      intro l hl
      rcases List.mem_append.mp hl with h | h
      · exact hg l h
      · rw [List.mem_singleton] at h
        subst h
        exact hline
    have heq : glue g ++ line ++ ['\n'] = glue (g ++ [line]) := by
      rw [glue_append, glue_singleton, List.append_assoc]
    simp only [split_loop]
    by_cases hov : n + (line.length + 1) > m
    · rw [if_pos hov]
      cases g with
      | nil =>
        rw [if_pos glue_nil, heq, List.nil_append,
          ih chunks [line] _ hrest (by simpa using hline)]
        simp
      | cons x xs =>
        rw [if_neg (glue_ne_nil x xs)]
        rw [show (line ++ ['\n'] : Str) = glue [line] from (glue_singleton line).symm]
        rw [ih (chunks ++ [(glue (x :: xs)).dropLast]) [line] _ hrest (by simpa using hline)]
        rw [chunkLines_append]
        have : chunkLines [(glue (x :: xs)).dropLast] = x :: xs := by
          simp [chunkLines, splitNewline_glue_dropLast (x :: xs) (by simp) hg]
        rw [this]
        simp
    · rw [if_neg hov, heq, ih chunks (g ++ [line]) _ hrest hsnoc]
      simp

theorem chunkLines_split_file_by_lines (s : Str) (m : Nat) :
    chunkLines (split_file_by_lines s m) = rustLines s := by
  unfold split_file_by_lines
  have h := split_loop_lines m (rustLines s) [] [] 0 (rustLines_no_newline s) (by simp)
  simpa [glue, chunkLines] using h

/-! ### Oversized lines land whole in their own chunk -/

theorem split_loop_mono (m : Nat) : ∀ (ls chunks : List Str) (cur : Str) (n : Nat) (c : Str),
    c ∈ chunks → c ∈ split_loop m ls chunks cur n := by
  intro ls
  induction ls with
  | nil =>
    intro chunks cur n c hc
    simp only [split_loop]
    split
    · exact hc
    · exact List.mem_append_left _ hc
  | cons line rest ih =>
    intro chunks cur n c hc
    simp only [split_loop]
    split
    · split
      · exact ih _ _ _ c hc
      · exact ih _ _ _ c (List.mem_append_left _ hc)
    · exact ih _ _ _ c hc

theorem split_loop_big_cur (m : Nat) : ∀ (ls chunks : List Str) (line : Str) (n : Nat),
    n > m → line ∈ split_loop m ls chunks (line ++ ['\n']) n := by
  intro ls
  induction ls with
  | nil =>
    intro chunks line n _
    simp only [split_loop, if_neg (show ¬(line ++ ['\n'] = []) by simp)]
    rw [List.dropLast_concat]
    exact List.mem_append_right _ (by simp)
  | cons l rest ih =>
    intro chunks line n hn
    simp only [split_loop]
    rw [if_pos (show n + (l.length + 1) > m by omega)]
    rw [if_neg (show ¬(line ++ ['\n'] = []) by simp)]
    rw [List.dropLast_concat]
    exact split_loop_mono m rest _ _ _ line (List.mem_append_right _ (by simp))

theorem split_loop_oversized (m : Nat) : ∀ (ls chunks : List Str) (cur : Str) (n : Nat)
    (line : Str), line ∈ ls → line.length > m → line ∈ split_loop m ls chunks cur n := by
  intro ls
  induction ls with
  | nil => intro chunks cur n line h _; simp at h
  | cons l rest ih =>
    intro chunks cur n line hline hlen
    rcases List.mem_cons.mp hline with heq | hmem
    · subst heq
      simp only [split_loop]
      rw [if_pos (show n + (line.length + 1) > m by omega)]
      by_cases hce : cur = []
      · rw [if_pos hce]
        subst hce
        rw [show ([] : Str) ++ line ++ ['\n'] = line ++ ['\n'] by simp]
        exact split_loop_big_cur m rest chunks line _ (by omega)
      · rw [if_neg hce]
        exact split_loop_big_cur m rest _ line _ (by omega)
    · simp only [split_loop]
      split
      · split
        · exact ih _ _ _ line hmem hlen
        · exact ih _ _ _ line hmem hlen
      · exact ih _ _ _ line hmem hlen

theorem split_file_by_lines_oversized (s : Str) (m : Nat) (line : Str)
    (h1 : line ∈ rustLines s) (h2 : line.length > m) :
    line ∈ split_file_by_lines s m :=
  split_loop_oversized m (rustLines s) [] [] 0 line h1 h2

/-! ### Content preservation through the split planner -/

theorem planContent_append (p₁ p₂ : List PartContent) :
    planContent (p₁ ++ p₂) = planContent p₁ ++ planContent p₂ := by
  simp [planContent]

theorem planContent_singleton (p : PartContent) :
    planContent [p] = p.file_chunks.flatten := by
  simp [planContent]

theorem add_chunks_content : ∀ (chunks : List Str) (parts : List PartContent)
    (cur : PartContent) (n : Nat),
    planContent (add_chunks chunks parts cur n).1
        ++ (add_chunks chunks parts cur n).2.1.file_chunks.flatten
      = planContent parts ++ cur.file_chunks.flatten ++ glue chunks := by
  intro chunks
  induction chunks with
  | nil => intro parts cur n; simp [add_chunks, glue]
  | cons chunk rest ih =>
    intro parts cur n
    simp only [add_chunks]
    by_cases hce : cur.file_chunks = []
    · rw [if_pos hce, ih]
      simp [hce, glue_cons, List.append_assoc]
    · rw [if_neg hce, ih]
      simp [planContent_append, planContent_singleton, glue_cons, List.append_assoc]

theorem plan_loop_content (hdr ftr : Str) (files : List Str) (ov m : Nat) :
    ∀ (ifs : List (Nat × Str)) (parts : List PartContent) (cur : PartContent)
      (n : Nat), (∀ p ∈ ifs, goodBlock p.2) →
    planContent (plan_loop hdr ftr files ov m ifs parts cur n)
      = planContent parts ++ cur.file_chunks.flatten ++ glue (ifs.map Prod.snd) := by
  intro ifs
  induction ifs with
  | nil =>
    intro parts cur n _
    simp only [plan_loop]
    by_cases hce : cur.file_chunks = []
    · rw [if_pos hce]
      simp [hce, glue]
    · rw [if_neg hce]
      simp [planContent_append, planContent_singleton, glue]
  | cons hd tl ih =>
    obtain ⟨i, file⟩ := hd
    intro parts cur n hgood
    have hgf : goodBlock file := hgood (i, file) (by simp)
    have hgtl : ∀ p ∈ tl, goodBlock p.2 :=
      fun p hp => hgood p (List.mem_cons_of_mem _ hp)
    simp only [plan_loop]
    by_cases h1 : n + calculate_file_length hdr ftr files i file + ov > m
    · rw [if_pos h1]
      by_cases h2 : byteLen file + ov > m
      · rw [if_pos h2, ih _ _ _ hgtl, add_chunks_content,
          glue_split_file_by_lines_good file _ hgf]
        simp [glue_cons, List.append_assoc]
      · rw [if_neg h2]
        by_cases hce : cur.file_chunks = []
        · rw [if_pos hce, ih _ _ _ hgtl]
          simp [hce, glue_cons, List.append_assoc]
        · rw [if_neg hce, ih _ _ _ hgtl]
          simp [planContent_append, planContent_singleton, glue_cons,
            List.append_assoc]
    · rw [if_neg h1, ih _ _ _ hgtl]
      simp [glue_cons, List.append_assoc]

theorem create_split_plan_content (hdr : Str) (files : List Str) (ftr : Str)
    (pt : PartTemplate) (m : Nat) (hgood : ∀ f ∈ files, goodBlock f) :
    planContent (create_split_plan hdr files ftr pt m) = glue files := by
  unfold create_split_plan
  rw [plan_loop_content hdr ftr files _ m (withIdx 0 files) [] ⟨[]⟩ 0
    (fun p hp => hgood p.2 (snd_mem_of_mem_withIdx files 0 p hp))]
  simp [planContent, withIdx_map_snd]

/-! ### The two branches of the entry point -/

theorem split_into_parts_fits (hdr : Str) (files : List Str) (ftr : Str)
    (pt : PartTemplate) (m : Nat) (h : fits_in_single_part hdr files ftr m) :
    split_into_parts hdr files ftr pt m
      = [(if hdr = [] then [] else hdr ++ ['\n']) ++ glue files ++ ftr] := by
  unfold split_into_parts
  rw [if_pos h]
  rfl

theorem split_into_parts_not_fits (hdr : Str) (files : List Str) (ftr : Str)
    (pt : PartTemplate) (m : Nat) (h : ¬ fits_in_single_part hdr files ftr m) :
    split_into_parts hdr files ftr pt m
      = assemble_multiple_parts (create_split_plan hdr files ftr pt m)
          pt hdr ftr := by
  unfold split_into_parts
  rw [if_neg h]

theorem assemble_getElem? (parts : List PartContent) (pt : PartTemplate)
    (hdr ftr : Str) (i : Nat) :
    (assemble_multiple_parts parts pt hdr ftr)[i]?
      = parts[i]?.map (fun p => assemble_one_part pt hdr ftr parts.length i p) := by
  unfold assemble_multiple_parts
  rw [List.getElem?_map, withIdx_getElem? parts 0 i]
  cases parts[i]? <;> simp

theorem assemble_length (parts : List PartContent) (pt : PartTemplate)
    (hdr ftr : Str) :
    (assemble_multiple_parts parts pt hdr ftr).length = parts.length := by
  simp [assemble_multiple_parts, withIdx_length]

/-! ### Size accounting of the split planner -/

theorem one_le_utf8Size (c : Char) : 1 ≤ utf8Size c := by
  unfold utf8Size
  split_ifs <;> omega

theorem length_le_byteLen (s : Str) : s.length ≤ byteLen s := by
  induction s with
  | nil => simp [byteLen]
  | cons c rest ih =>
    simp only [byteLen, List.map_cons, List.sum_cons, List.length_cons]
    have h1 := one_le_utf8Size c
    simp only [byteLen] at ih
    omega

theorem sumLen_append (l₁ l₂ : List Str) :
    sumLen (l₁ ++ l₂) = sumLen l₁ + sumLen l₂ := by
  simp [sumLen]

theorem sumLen_singleton (x : Str) : sumLen [x] = x.length := by
  simp [sumLen]

theorem file_length_lower (hdr ftr : Str) (files : List Str) (i : Nat) (f : Str) :
    f.length + 1 ≤ calculate_file_length hdr ftr files i f := by
  simp only [calculate_file_length]
  split_ifs <;> omega

theorem plan_loop_size (hdr ftr : Str) (files : List Str) (ov m : Nat)
    (hNL : ∀ f ∈ files, byteLen f + ov ≤ m) :
    ∀ (ifs : List (Nat × Str)) (parts : List PartContent) (cur : PartContent)
      (n : Nat),
    (∀ q ∈ ifs, q.2 ∈ files) →
    (∀ q ∈ parts, sumLen q.file_chunks + ov ≤ m + 1) →
    (cur.file_chunks = [] → n = 0) →
    (cur.file_chunks ≠ [] → sumLen cur.file_chunks ≤ n ∧ n + ov ≤ m + 1) →
    ∀ p ∈ plan_loop hdr ftr files ov m ifs parts cur n,
      sumLen p.file_chunks + ov ≤ m + 1 := by
  intro ifs
  induction ifs with
  | nil =>
    intro parts cur n _ hparts hz hcur p hp
    simp only [plan_loop] at hp
    by_cases hce : cur.file_chunks = []
    · rw [if_pos hce] at hp
      exact hparts p hp
    · rw [if_neg hce] at hp
      rcases List.mem_append.mp hp with h | h
      · exact hparts p h
      · rw [List.mem_singleton] at h
        subst h
        have h2 := hcur hce
        omega
  | cons hd tl ih =>
    obtain ⟨i, file⟩ := hd
    intro parts cur n hifs hparts hz hcur p hp
    have hbound : byteLen file + ov ≤ m := hNL file (hifs (i, file) (by simp))
    have hblen := length_le_byteLen file
    have htl : ∀ q ∈ tl, q.2 ∈ files := fun q hq => hifs q (List.mem_cons_of_mem _ hq)
    simp only [plan_loop] at hp
    by_cases h1 : n + calculate_file_length hdr ftr files i file + ov > m
    · rw [if_pos h1, if_neg (show ¬(byteLen file + ov > m) by omega)] at hp
      by_cases hce : cur.file_chunks = []
      · rw [if_pos hce] at hp
        have hn0 : n = 0 := hz hce
        refine ih _ _ _ htl hparts (by simp) ?_ p hp
        intro _
        rw [sumLen_append, hce]
        constructor
        · simp [sumLen_singleton, sumLen]
          omega
        · omega
      · rw [if_neg hce] at hp
        have hc2 := hcur hce
        refine ih _ _ _ htl ?_ (by simp) ?_ p hp
        · intro q hq
          rcases List.mem_append.mp hq with h | h
          · exact hparts q h
          · rw [List.mem_singleton] at h
            subst h
            omega
        · intro _
          constructor
          · simp [sumLen_singleton, sumLen]
            omega
          · omega
    · rw [if_neg h1] at hp
      have hfl := file_length_lower hdr ftr files i file
      have hsl : sumLen cur.file_chunks ≤ n := by
        by_cases hce : cur.file_chunks = []
        · rw [hce]
          have := hz hce
          simp [sumLen]
        · exact (hcur hce).1
      refine ih _ _ _ htl hparts (by simp) ?_ p hp
      intro _
      rw [sumLen_append, sumLen_singleton]
      constructor
      · simp
        omega
      · omega

theorem create_split_plan_size (hdr : Str) (files : List Str) (ftr : Str)
    (pt : PartTemplate) (m : Nat)
    (hNL : ∀ f ∈ files, byteLen f + calculate_part_overhead pt ≤ m) :
    ∀ p ∈ create_split_plan hdr files ftr pt m,
      sumLen p.file_chunks + calculate_part_overhead pt ≤ m + 1 := by
  unfold create_split_plan
  exact plan_loop_size hdr ftr files _ m hNL (withIdx 0 files) [] ⟨[]⟩ 0
    (fun q hq => snd_mem_of_mem_withIdx files 0 q hq)
    (by simp) (fun _ => rfl) (fun h => absurd rfl h)

theorem assemble_one_part_length (pt : PartTemplate) (hdr ftr : Str)
    (T i : Nat) (pc : PartContent) (m : Nat)
    (hc : sumLen pc.file_chunks + calculate_part_overhead pt ≤ m + 1)
    (hRh : (replace_placeholders pt.header (i + 1) T).length
      ≤ (sub999 pt.header).length)
    (hRf : (replace_placeholders pt.footer (i + 1) T).length
      ≤ (sub999 pt.footer).length)
    (hRp : (replace_placeholders pt.pending (i + 1) T).length
      ≤ (sub999 pt.pending).length) :
    (assemble_one_part pt hdr ftr T i pc).length
      ≤ m + 1 + (if i = 0 ∧ hdr ≠ [] then hdr.length + 1 else 0)
          + (if i = T - 1 ∧ ftr ≠ [] then ftr.length + 1 else 0) := by
  have hfl : pc.file_chunks.flatten.length = sumLen pc.file_chunks := by
    simp [sumLen]
  simp only [calculate_part_overhead] at hc
  unfold assemble_one_part
  simp only [List.length_append, apply_ite List.length, List.length_cons,
    List.length_nil, List.length_singleton, hfl]
  by_cases hpend : pt.pending = []
  · rw [if_pos hpend] at hc
    rw [if_neg (show ¬(i < T - 1 ∧ pt.pending ≠ []) from fun hcc => hcc.2 hpend)]
    split_ifs <;> omega
  · rw [if_neg hpend] at hc
    split_ifs <;> omega

/-! ### Every assembled part ends with a newline -/

theorem getLast?_append_concat (a w : Str) :
    (a ++ (w ++ ['\n'])).getLast? = some '\n' := by
  rw [← List.append_assoc]
  exact List.getLast?_concat _

theorem assemble_one_part_getLast? (pt : PartTemplate) (hdr ftr : Str)
    (T i : Nat) (pc : PartContent) :
    (assemble_one_part pt hdr ftr T i pc).getLast? = some '\n' := by
  unfold assemble_one_part
  by_cases h6 : i = T - 1 ∧ ftr ≠ []
  · rw [if_pos h6]
    exact getLast?_append_concat _ _
  · rw [if_neg h6, List.append_nil]
    by_cases h5 : i < T - 1 ∧ pt.pending ≠ []
    · rw [if_pos h5]
      exact getLast?_append_concat _ _
    · rw [if_neg h5, List.append_nil]
      exact getLast?_append_concat _ _

theorem glue_getLast? (files : List Str) (h : files ≠ []) :
    (glue files).getLast? = some '\n' := by
  induction files with
  | nil => exact absurd rfl h
  | cons f rest ih =>
    cases rest with
    | nil =>
      rw [glue_singleton]
      exact List.getLast?_concat _
    | cons x xs =>
      rw [glue_cons, List.getLast?_append_of_ne_nil _ (glue_ne_nil x xs)]
      exact ih (by simp)

/-! ## Claim theorems -/

/-- Claim C4: whenever the character count of all blocks (each plus one
newline), plus the header and a newline when the header is non-empty, plus
the footer is at most the budget, `split_into_parts` returns exactly one
part equal to the header (followed by a newline when non-empty), then each
block followed by a newline, then the footer; the result does not depend
on the part template, so no part wrapper text is added. -/
theorem c4_single_part_fast_path (hdr : Str) (files : List Str) (ftr : Str)
    (pt : PartTemplate) (m : Nat)
    (h : (files.map (fun f => f.length + 1)).sum
        + (if hdr = [] then 0 else hdr.length + 1) + ftr.length ≤ m) :
    split_into_parts hdr files ftr pt m
      = [(if hdr = [] then [] else hdr ++ ['\n']) ++ glue files ++ ftr]
    ∧ ∀ pt₂ : PartTemplate, split_into_parts hdr files ftr pt₂ m
        = split_into_parts hdr files ftr pt m := by
  have hf : fits_in_single_part hdr files ftr m := h
  refine ⟨split_into_parts_fits hdr files ftr pt m hf, fun pt₂ => ?_⟩
  rw [split_into_parts_fits hdr files ftr pt₂ m hf,
    split_into_parts_fits hdr files ftr pt m hf]

/-- Witness for C4 at a concrete input (the repository's own unit test
`test_split_into_parts_single_part_fit_exactly`). -/
theorem c4_single_part_fast_path_witness :
    split_into_parts (str "Header") [str "File1", str "File2"] (str "Footer")
        ⟨str "A", str "B", str "C"⟩ 25
      = [(if str "Header" = [] then [] else str "Header" ++ ['\n'])
          ++ glue [str "File1", str "File2"] ++ str "Footer"] :=
  (c4_single_part_fast_path (str "Header") [str "File1", str "File2"]
    (str "Footer") ⟨str "A", str "B", str "C"⟩ 25 (by decide)).1

/-- Claim C3 (amended): `split_into_parts` is a total function; with zero
blocks it returns exactly one part containing only header and footer when
they fit within the budget, but when they do not fit the single-part
check, it returns zero parts (not at least one). -/
theorem c3_zero_blocks (hdr ftr : Str) (pt : PartTemplate) (m : Nat) :
    (fits_in_single_part hdr [] ftr m →
      split_into_parts hdr [] ftr pt m
        = [(if hdr = [] then [] else hdr ++ ['\n']) ++ ftr])
    ∧ (¬ fits_in_single_part hdr [] ftr m →
        split_into_parts hdr [] ftr pt m = []) := by
  constructor
  · intro h
    rw [split_into_parts_fits hdr [] ftr pt m h]
    simp [glue]
  · intro h
    rw [split_into_parts_not_fits hdr [] ftr pt m h]
    rfl

/-- Witness for C3 at a concrete input. -/
theorem c3_zero_blocks_witness :
    split_into_parts (str "Header") [] (str "Footer")
        ⟨str "A", str "B", str "C"⟩ 50
      = [(if str "Header" = [] then [] else str "Header" ++ ['\n'])
          ++ str "Footer"] :=
  (c3_zero_blocks (str "Header") (str "Footer")
    ⟨str "A", str "B", str "C"⟩ 50).1 (by decide)

/-- Counterexample to C3 as stated: with zero blocks and a budget too
small for header and footer, `split_into_parts` returns zero parts, not
at least one. -/
theorem c3_counterexample :
    (split_into_parts (str "HH") [] (str "FF")
      ⟨str "A", str "B", str ""⟩ 3).length = 0 := by decide

/-- Claim C7 (amended): the overhead estimate is the sum of the substituted
lengths of the three fragments, plus one newline each for the part header
and part footer unconditionally (even when they are empty), plus one
newline for the pending fragment only when it is non-empty. -/
theorem c7_overhead_formula (pt : PartTemplate) :
    calculate_part_overhead pt = overhead_spec pt := by
  simp only [calculate_part_overhead, overhead_spec]
  by_cases h : pt.pending = []
  · rw [if_pos h, if_pos h]
    omega
  · rw [if_neg h, if_neg h]
    omega

/-- Counterexample to C7 as stated: for the all-empty template the code
still counts a newline for the empty header and footer (overhead 2),
while the claim's formula (no newline for an empty fragment) gives 0. -/
theorem c7_counterexample :
    calculate_part_overhead ⟨[], [], []⟩ = 2
    ∧ overhead_claimed ⟨[], [], []⟩ = 0 := by decide

/-- Claim C10: the planner routes blocks by UTF-8 byte length, not by
character count.  Concretely, for the block `"éé\néé"` (5 characters,
9 bytes) the character count plus overhead fits the budget of 9, the
byte length plus overhead exceeds it, and the block is nevertheless
line-split across two parts (with the chunk size further reduced by the
header's byte length). -/
theorem c10_byte_length_routing :
    (str "éé\néé").length
        + calculate_part_overhead ⟨str "A", str "B", []⟩ ≤ 9
    ∧ 9 < byteLen (str "éé\néé")
        + calculate_part_overhead ⟨str "A", str "B", []⟩
    ∧ split_into_parts (str "HHH") [str "éé\néé"] [] ⟨str "A", str "B", []⟩ 9
        = [str "HHH\nA\néé\nB\n", str "A\néé\nB\n"] := by decide

/-- Claim C8: the line splitter splits only at line boundaries — splitting
each chunk back at its newlines recovers exactly the block's lines, in
order, with no loss or duplication; an empty block yields no chunks; and
any line longer than the maximum chunk size appears whole as a chunk of
its own. -/
theorem c8_line_splitter (s : Str) (m : Nat) :
    chunkLines (split_file_by_lines s m) = rustLines s
    ∧ (s = [] → split_file_by_lines s m = [])
    ∧ ∀ line ∈ rustLines s, line.length > m → line ∈ split_file_by_lines s m := by
  refine ⟨chunkLines_split_file_by_lines s m, ?_, ?_⟩
  · intro h
    subst h
    rfl
  · intro line h1 h2
    exact split_file_by_lines_oversized s m line h1 h2

/-- Witness for C8 at a concrete input: an oversized line is its own
chunk. -/
theorem c8_line_splitter_witness :
    str "This line is long" ∈ split_file_by_lines (str "Short\nThis line is long") 6 :=
  (c8_line_splitter (str "Short\nThis line is long") 6).2.2
    (str "This line is long") (by decide) (by decide)

/-- Claim C1 (amended): content is preserved when every block is non-empty,
contains no carriage return and does not end with a newline.  In the
single-part fast path the one part is the header, the newline-joined
blocks, and the footer; in the multi-part path the concatenation of all
chunks of all planned parts (all wrapper text stripped) equals the blocks
joined with one newline after each.  Blocks violating the proviso can lose
carriage returns or a trailing newline in the line-splitting path. -/
theorem c1_content_preservation (hdr : Str) (files : List Str) (ftr : Str)
    (pt : PartTemplate) (m : Nat)
    (hgood : ∀ f ∈ files, '\r' ∉ f ∧ f ≠ [] ∧ f.getLast? ≠ some '\n') :
    (fits_in_single_part hdr files ftr m →
      split_into_parts hdr files ftr pt m
        = [(if hdr = [] then [] else hdr ++ ['\n']) ++ glue files ++ ftr])
    ∧ (¬ fits_in_single_part hdr files ftr m →
        planContent (create_split_plan hdr files ftr pt m) = glue files) := by
  constructor
  · exact split_into_parts_fits hdr files ftr pt m
  · intro _
    exact create_split_plan_content hdr files ftr pt m hgood

/-- Witness for C1 in the multi-part branch at a concrete input. -/
theorem c1_content_preservation_witness :
    planContent (create_split_plan (str "H") [str "File1", str "File2"]
        (str "F") ⟨str "A", str "B", str "C"⟩ 10)
      = glue [str "File1", str "File2"] :=
  (c1_content_preservation (str "H") [str "File1", str "File2"] (str "F")
    ⟨str "A", str "B", str "C"⟩ 10 (by decide)).2 (by decide)

/-- Counterexample to C1 as stated: a block containing a carriage return
loses it when line-split — the character `'\r'` occurs in the input block
but nowhere in the whole output of `split_into_parts`. -/
theorem c1_counterexample :
    '\r' ∈ str "x\r\ny"
    ∧ '\r' ∉ (split_into_parts [] [str "x\r\ny"] []
        ⟨str "A", str "B", []⟩ 4).flatten := by decide

/-- Claim C9: every part produced by the multi-part path ends with a
newline character, while the single-part fast path appends nothing after
the global footer: the part is exactly header part, newline-joined blocks
and footer, so with a non-empty footer it ends in the footer's last
character, and with an empty footer it ends in the newline following the
last block (or the header, when there are no blocks). -/
theorem c9_trailing_newline (hdr : Str) (files : List Str) (ftr : Str)
    (pt : PartTemplate) (m : Nat) :
    (¬ fits_in_single_part hdr files ftr m →
      ∀ p ∈ split_into_parts hdr files ftr pt m, p.getLast? = some '\n')
    ∧ (fits_in_single_part hdr files ftr m →
        split_into_parts hdr files ftr pt m
          = [(if hdr = [] then [] else hdr ++ ['\n']) ++ glue files ++ ftr]
        ∧ (ftr = [] → files ≠ [] →
            ∀ p ∈ split_into_parts hdr files ftr pt m, p.getLast? = some '\n')
        ∧ (ftr = [] → files = [] → hdr ≠ [] →
            ∀ p ∈ split_into_parts hdr files ftr pt m,
              p.getLast? = some '\n')) := by
  constructor
  · intro h p hp
    rw [split_into_parts_not_fits hdr files ftr pt m h] at hp
    unfold assemble_multiple_parts at hp
    rw [List.mem_map] at hp
    obtain ⟨ip, _, rfl⟩ := hp
    exact assemble_one_part_getLast? pt hdr ftr _ ip.1 ip.2
  · intro h
    have he := split_into_parts_fits hdr files ftr pt m h
    refine ⟨he, ?_, ?_⟩
    · intro hf hne p hp
      rw [he, List.mem_singleton] at hp
      subst hp
      have hgne : glue files ≠ [] := by
        cases files with
        | nil => exact absurd rfl hne
        | cons x xs => exact glue_ne_nil x xs
      rw [hf, List.append_nil, List.getLast?_append_of_ne_nil _ hgne]
      exact glue_getLast? files hne
    · intro hf hfe hh p hp
      rw [he, List.mem_singleton] at hp
      subst hp
      rw [hf, hfe, List.append_nil, show glue ([] : List Str) = [] from rfl,
        List.append_nil, if_neg hh]
      exact List.getLast?_concat _

/-- Witness for C9 at a concrete multi-part input. -/
theorem c9_trailing_newline_witness :
    (str "H\n==P1/2==\nFile1\n==E1==\n1 left\n").getLast? = some '\n' :=
  (c9_trailing_newline (str "H") [str "File1", str "File2"] (str "F")
      ⟨str "==P<part-number>/<total-parts>==", str "==E<part-number>==",
        str "<parts-remaining> left"⟩ 14).1 (by decide)
    (str "H\n==P1/2==\nFile1\n==E1==\n1 left\n") (by decide)

/-- Counterexample to C5 as stated: on the claim's own example input
(header `"H"`, blocks `"File1"`, `"File2"`, footer `"F"`, budget 24) the
content fits in a single part, so the result is one part with no wrapper
text at all — not the two parts the claim names; moreover the claim's
rendering order (part header before global header, global footer before
part footer) is not the code's order. -/
theorem c5_counterexample :
    split_into_parts (str "H") [str "File1", str "File2"] (str "F")
        ⟨str "==P<part-number>/<total-parts>==", str "==E<part-number>==",
          str "<parts-remaining> left"⟩ 24
      = [str "H\nFile1\nFile2\nF"] := by decide

/-- Claim C5 (amended): in the multi-part path, the part at index `i` is
rendered in this order: the global header if `i = 0` and it is non-empty,
then the part header with part-number `i + 1` and total-parts equal to the
number of planned parts, then the part's chunks in order, then the part
footer with the same substitutions, then the pending text if `i` is not
last and pending is non-empty, then the global footer if `i` is last and
it is non-empty; every wrapper fragment is followed by a newline.  On the
claim's example input, a budget of 24 produces a single part instead. -/
theorem c5_assembly_order (hdr : Str) (files : List Str) (ftr : Str)
    (pt : PartTemplate) (m : Nat)
    (hnf : ¬ fits_in_single_part hdr files ftr m) (i : Nat) (p : Str)
    (hp : (split_into_parts hdr files ftr pt m)[i]? = some p) :
    ∃ pc, (create_split_plan hdr files ftr pt m)[i]? = some pc
      ∧ p = (if i = 0 ∧ hdr ≠ [] then hdr ++ ['\n'] else [])
          ++ (replace_placeholders pt.header (i + 1)
                (create_split_plan hdr files ftr pt m).length ++ ['\n'])
          ++ pc.file_chunks.flatten
          ++ (replace_placeholders pt.footer (i + 1)
                (create_split_plan hdr files ftr pt m).length ++ ['\n'])
          ++ (if i < (create_split_plan hdr files ftr pt m).length - 1
                ∧ pt.pending ≠ [] then
              replace_placeholders pt.pending (i + 1)
                (create_split_plan hdr files ftr pt m).length ++ ['\n']
            else [])
          ++ (if i = (create_split_plan hdr files ftr pt m).length - 1
                ∧ ftr ≠ [] then ftr ++ ['\n'] else []) := by
  rw [split_into_parts_not_fits hdr files ftr pt m hnf, assemble_getElem?] at hp
  cases hpc : (create_split_plan hdr files ftr pt m)[i]? with
  | none =>
    rw [hpc] at hp
    simp at hp
  | some pc =>
    rw [hpc] at hp
    have hp2 : assemble_one_part pt hdr ftr
        (create_split_plan hdr files ftr pt m).length i pc = p := by
      simpa using hp
    exact ⟨pc, rfl, by rw [← hp2]; rfl⟩

/-- Witness for C5 at a concrete input: the example with budget 14, where
the content no longer fits in one part. -/
theorem c5_assembly_order_witness :
    ∃ pc, (create_split_plan (str "H") [str "File1", str "File2"] (str "F")
        ⟨str "==P<part-number>/<total-parts>==", str "==E<part-number>==",
          str "<parts-remaining> left"⟩ 14)[0]? = some pc
      ∧ str "H\n==P1/2==\nFile1\n==E1==\n1 left\n"
        = (if (0 : Nat) = 0 ∧ str "H" ≠ [] then str "H" ++ ['\n'] else [])
          ++ (replace_placeholders (str "==P<part-number>/<total-parts>==") 1
                (create_split_plan (str "H") [str "File1", str "File2"] (str "F")
                  ⟨str "==P<part-number>/<total-parts>==", str "==E<part-number>==",
                    str "<parts-remaining> left"⟩ 14).length ++ ['\n'])
          ++ pc.file_chunks.flatten
          ++ (replace_placeholders (str "==E<part-number>==") 1
                (create_split_plan (str "H") [str "File1", str "File2"] (str "F")
                  ⟨str "==P<part-number>/<total-parts>==", str "==E<part-number>==",
                    str "<parts-remaining> left"⟩ 14).length ++ ['\n'])
          ++ (if (0 : Nat) < (create_split_plan (str "H") [str "File1", str "File2"] (str "F")
                  ⟨str "==P<part-number>/<total-parts>==", str "==E<part-number>==",
                    str "<parts-remaining> left"⟩ 14).length - 1
                ∧ str "<parts-remaining> left" ≠ [] then
              replace_placeholders (str "<parts-remaining> left") 1
                (create_split_plan (str "H") [str "File1", str "File2"] (str "F")
                  ⟨str "==P<part-number>/<total-parts>==", str "==E<part-number>==",
                    str "<parts-remaining> left"⟩ 14).length ++ ['\n']
            else [])
          ++ (if (0 : Nat) = (create_split_plan (str "H") [str "File1", str "File2"] (str "F")
                  ⟨str "==P<part-number>/<total-parts>==", str "==E<part-number>==",
                    str "<parts-remaining> left"⟩ 14).length - 1
                ∧ str "F" ≠ [] then str "F" ++ ['\n'] else []) :=
  c5_assembly_order (str "H") [str "File1", str "File2"] (str "F")
    ⟨str "==P<part-number>/<total-parts>==", str "==E<part-number>==",
      str "<parts-remaining> left"⟩ 14 (by decide) 0
    (str "H\n==P1/2==\nFile1\n==E1==\n1 left\n") (by decide)

/-- Claim C6: in a multi-part assembly with a non-empty pending template,
every non-last part ends with the pending text rendered with
parts-remaining equal to total parts minus the 1-indexed part number
(followed by a newline), and the last part is assembled without the
pending template at all — its rendering is identical for any pending
text. -/
theorem c6_pending_text (parts : List PartContent) (ph pf pend hdr ftr : Str)
    (i : Nat) (p : Str)
    (hp : (assemble_multiple_parts parts ⟨ph, pf, pend⟩ hdr ftr)[i]? = some p) :
    (i < parts.length - 1 → pend ≠ [] →
      ∃ a : Str, p = a
        ++ (replaceAll (replaceAll (replaceAll pend phNum (natToStr (i + 1)))
              phTotal (natToStr parts.length))
            phRemain (natToStr (parts.length - (i + 1))) ++ ['\n']))
    ∧ (i = parts.length - 1 → ∀ pend₂ : Str,
        (assemble_multiple_parts parts ⟨ph, pf, pend₂⟩ hdr ftr)[i]? = some p) := by
  rw [assemble_getElem?] at hp
  cases hpc : parts[i]? with
  | none =>
    rw [hpc] at hp
    simp at hp
  | some pc =>
    rw [hpc] at hp
    have hp2 : assemble_one_part ⟨ph, pf, pend⟩ hdr ftr parts.length i pc = p := by
      simpa using hp
    constructor
    · intro hlt hpend
      refine ⟨(if i = 0 ∧ hdr ≠ [] then hdr ++ ['\n'] else [])
        ++ (replace_placeholders ph (i + 1) parts.length ++ ['\n'])
        ++ pc.file_chunks.flatten
        ++ (replace_placeholders pf (i + 1) parts.length ++ ['\n']), ?_⟩
      rw [← hp2]
      unfold assemble_one_part
      rw [if_pos (show i < parts.length - 1 ∧
        (PartTemplate.mk ph pf pend).pending ≠ [] from ⟨hlt, hpend⟩)]
      rw [if_neg (show ¬(i = parts.length - 1 ∧ ftr ≠ []) from
        fun hcc => by omega)]
      rw [List.append_nil]
      rfl
    · intro hlast pend₂
      rw [assemble_getElem?, hpc]
      have hnp : ¬(i < parts.length - 1) := by omega
      have h1 : ¬(i < parts.length - 1 ∧ pend₂ ≠ []) := fun hcc => hnp hcc.1
      have h2 : ¬(i < parts.length - 1 ∧ pend ≠ []) := fun hcc => hnp hcc.1
      rw [← hp2]
      unfold assemble_one_part
      rw [if_neg h1, if_neg h2]
      simp

/-- Witness for C6 at a concrete input: the first of two parts ends in the
rendered pending text with one part remaining. -/
theorem c6_pending_text_witness :
    ∃ a : Str, str "H\n==P1/2==\nFile1\n==E1==\n1 left\n"
      = a ++ (replaceAll (replaceAll (replaceAll (str "<parts-remaining> left")
            phNum (natToStr (0 + 1))) phTotal
            (natToStr ([(⟨[str "File1" ++ ['\n']]⟩ : PartContent),
              ⟨[str "File2" ++ ['\n']]⟩] : List PartContent).length))
          phRemain (natToStr (([(⟨[str "File1" ++ ['\n']]⟩ : PartContent),
              ⟨[str "File2" ++ ['\n']]⟩] : List PartContent).length - (0 + 1)))
          ++ ['\n']) :=
  (c6_pending_text [⟨[str "File1" ++ ['\n']]⟩, ⟨[str "File2" ++ ['\n']]⟩]
    (str "==P<part-number>/<total-parts>==") (str "==E<part-number>==")
    (str "<parts-remaining> left") (str "H") (str "F") 0
    (str "H\n==P1/2==\nFile1\n==E1==\n1 left\n") (by decide)).1
    (by decide) (by decide)

/-- Counterexample to C2 as stated: with blocks `"ab\ncd"` and `"ef\ngh"`,
empty global header/footer, wrapper `{header "A", footer "B", no pending}`
and budget 9, every line of every block plus its newline plus the whole
part wrapper overhead fits within the budget (2 + 1 + 4 = 7 ≤ 9), yet the
first rendered part has 10 characters — the budget is exceeded outside
the claim's sole permitted exception. -/
theorem c2_counterexample :
    (∀ f ∈ [str "ab\ncd", str "ef\ngh"], ∀ line ∈ rustLines f,
      line.length + 1 + calculate_part_overhead ⟨str "A", str "B", []⟩ ≤ 9)
    ∧ ∃ p ∈ split_into_parts [] [str "ab\ncd", str "ef\ngh"] []
        ⟨str "A", str "B", []⟩ 9, 9 < p.length := by decide

/-- Claim C2 (amended): provided no block's byte length plus the wrapper
overhead exceeds the budget (so no block is line-split) and every rendered
wrapper fragment is no longer than its 999-sentinel estimate (true
whenever at most 999 parts result), every part's character count is at
most the budget plus one, plus the global header's length plus one for
the first part (when the header is non-empty), plus the global footer's
length plus one for the last part (when the footer is non-empty).  The
plain budget itself can be exceeded by these margins: the planner's
whole-block check `byteLen + overhead ≤ budget` omits the block's
trailing newline, and blocks moved whole to a fresh part are recorded
without the global header/footer contribution. -/
theorem c2_budget_bound (hdr : Str) (files : List Str) (ftr : Str)
    (pt : PartTemplate) (m : Nat)
    (hNL : ∀ f ∈ files, byteLen f + calculate_part_overhead pt ≤ m)
    (hR : ∀ k, k ≤ (create_split_plan hdr files ftr pt m).length → 1 ≤ k →
      (replace_placeholders pt.header k
          (create_split_plan hdr files ftr pt m).length).length
        ≤ (sub999 pt.header).length
      ∧ (replace_placeholders pt.footer k
          (create_split_plan hdr files ftr pt m).length).length
        ≤ (sub999 pt.footer).length
      ∧ (replace_placeholders pt.pending k
          (create_split_plan hdr files ftr pt m).length).length
        ≤ (sub999 pt.pending).length)
    (i : Nat) (p : Str)
    (hp : (split_into_parts hdr files ftr pt m)[i]? = some p) :
    p.length ≤ m + 1
      + (if i = 0 ∧ hdr ≠ [] then hdr.length + 1 else 0)
      + (if i = (split_into_parts hdr files ftr pt m).length - 1 ∧ ftr ≠ []
          then ftr.length + 1 else 0) := by
  by_cases hf : fits_in_single_part hdr files ftr m
  · rw [split_into_parts_fits hdr files ftr pt m hf] at hp
    cases i with
    | succ j => simp at hp
    | zero =>
      have hpe : p = (if hdr = [] then [] else hdr ++ ['\n']) ++ glue files ++ ftr := by
        simpa using hp.symm
      have hlen : p.length ≤ m := by
        rw [hpe]
        have hglen : ∀ fs : List Str,
            (glue fs).length = (fs.map (fun f => f.length + 1)).sum := by
          intro fs
          induction fs with
          | nil => rfl
          | cons x xs ih =>
            rw [glue_cons, List.length_append, ih]
            simp only [List.map_cons, List.sum_cons, List.length_append,
              List.length_singleton]
        have hglen2 := hglen files
        have hhl : (if hdr = [] then ([] : Str) else hdr ++ ['\n']).length
            = (if hdr = [] then 0 else hdr.length + 1) := by
          split_ifs <;> simp
        simp only [List.length_append, hglen2, hhl]
        unfold fits_in_single_part at hf
        omega
      omega
  · rw [split_into_parts_not_fits hdr files ftr pt m hf] at hp ⊢
    rw [assemble_getElem?] at hp
    cases hpc : (create_split_plan hdr files ftr pt m)[i]? with
    | none =>
      rw [hpc] at hp
      simp at hp
    | some pc =>
      rw [hpc] at hp
      have hp2 : assemble_one_part pt hdr ftr
          (create_split_plan hdr files ftr pt m).length i pc = p := by
        simpa using hp
      have hmem : pc ∈ create_split_plan hdr files ftr pt m :=
        List.getElem?_mem hpc
      have hi : i < (create_split_plan hdr files ftr pt m).length := by
        by_contra hig
        rw [List.getElem?_eq_none (by omega)] at hpc
        simp at hpc
      obtain ⟨hRh, hRf, hRp⟩ := hR (i + 1) (by omega) (by omega)
      have hsize := create_split_plan_size hdr files ftr pt m hNL pc hmem
      have hble := assemble_one_part_length pt hdr ftr
        (create_split_plan hdr files ftr pt m).length i pc m hsize hRh hRf hRp
      rw [← hp2, assemble_length]
      exact hble

/-- Witness for C2 at a concrete input: two 4-byte blocks under budget 8
with wrapper `{header "A", footer "B"}`; each part renders to exactly
9 = 8 + 1 characters, meeting the amended bound. -/
theorem c2_budget_bound_witness :
    (str "A\naaaa\nB\n").length ≤ 8 + 1
      + (if (0 : Nat) = 0 ∧ ([] : Str) ≠ [] then ([] : Str).length + 1 else 0)
      + (if (0 : Nat) = (split_into_parts [] [str "aaaa", str "bbbb"] []
            ⟨str "A", str "B", []⟩ 8).length - 1 ∧ ([] : Str) ≠ []
          then ([] : Str).length + 1 else 0) :=
  c2_budget_bound [] [str "aaaa", str "bbbb"] [] ⟨str "A", str "B", []⟩ 8
    (by decide) (by decide) 0 (str "A\naaaa\nB\n") (by decide)
